import Mathlib

/-!
Verification of the convolution core of the DSP-Learning repository.

The embedding translates, over exact rationals, the numeric kernel of
`src/Convolution/Algorithms/input_side.py` (the signal generators, the
`compute_step` accumulator and the nested convolution loop of `main`) and the
`Signal` class of `src/Convolution/Algorithms/common/signals/signal.py`.
Arrays become `List ℚ`; `np.linspace` becomes `linspace`; the in-place update
of one output sample becomes `List.set`.
-/

namespace DSP

/-- Model of `np.linspace(start, stop, num)` with the default `endpoint=True`:
`num` points `start + i * (stop - start) / (num - 1)`.  Over ℚ the endpoint is
hit exactly; for `num = 1` division by zero yields `[start]`, matching numpy's
single-sample case. -/
def linspace (start stop : ℚ) (num : Nat) : List ℚ :=
  (List.range num).map
    (fun i : Nat => start + (i : ℚ) * (stop - start) / ((num : ℚ) - 1))

/-- Embeds `get_signal_x(signal_len, signal_res)` of input_side.py:
`np.linspace(0, signal_len - 1, signal_res)`. -/
def get_signal_x (signal_len : ℚ) (signal_res : Nat) : List ℚ :=
  linspace 0 (signal_len - 1) signal_res

/-- Embeds `get_custom_signal_y(signal_x, func)` of input_side.py:
`np.array([func(x) for x in signal_x])`. -/
def get_custom_signal_y (signal_x : List ℚ) (func : ℚ → ℚ) : List ℚ :=
  signal_x.map func

/-- Embeds `get_zero_signal_y(signal_x)` of input_side.py:
`np.zeros(len(signal_x))`. -/
def get_zero_signal_y (signal_x : List ℚ) : List ℚ :=
  List.replicate signal_x.length 0

/-- Embeds `compute_step(input_y, impulse_y, prev_output_y)` of input_side.py:
`prev_output_y + input_y * impulse_y`. -/
def compute_step (input_y impulse_y prev_output_y : ℚ) : ℚ :=
  prev_output_y + input_y * impulse_y

/-- Embeds line 170 of input_side.py:
`output_signal_len = len(input_signal_x) + len(impulse_signal_x) - 1`. -/
def output_signal_len (n m : Nat) : Nat :=
  n + m - 1

/-- The pairs `(input_index, impulse_index)` visited by the nested loop of
`main` in input_side.py, in its fixed input-major, impulse-minor order. -/
def stepPairs (n m : Nat) : List (Nat × Nat) :=
  (List.range n).flatMap (fun i => (List.range m).map (fun j => (i, j)))

/-- One execution of the assignment at lines 198-204 of input_side.py:
`output_signal_y[input_index + impulse_index] = compute_step(...)`, returning
the updated output array. -/
def stepUpdate (input_y impulse_y output_y : List ℚ) (i j : Nat) : List ℚ :=
  output_y.set (i + j)
    (compute_step (input_y.getD i 0) (impulse_y.getD j 0) (output_y.getD (i + j) 0))

/-- All six arrays live in `main` of input_side.py: the x and y arrays of the
input, impulse and output signals. -/
structure MainState where
  input_x : List ℚ
  input_y : List ℚ
  impulse_x : List ℚ
  impulse_y : List ℚ
  output_x : List ℚ
  output_y : List ℚ
deriving DecidableEq, Repr

/-- The body of the inner loop of `main` (lines 198-204 of input_side.py) as a
transformation of the six arrays: the only array assignment it performs is the
`stepUpdate` write into `output_signal_y`. -/
def loopBody (st : MainState) (i j : Nat) : MainState :=
  { st with output_y := stepUpdate st.input_y st.impulse_y st.output_y i j }

/-- Runs the accumulation of the nested loop over a given list of index pairs,
threading the output array through `stepUpdate`. -/
def runSteps (input_y impulse_y : List ℚ) (output_y : List ℚ)
    (pairs : List (Nat × Nat)) : List ℚ :=
  pairs.foldl (fun out p => stepUpdate input_y impulse_y out p.1 p.2) output_y

/-- The whole numeric effect of the loop of `main` in input_side.py: starting
from the zero output array of length `N + M - 1` (lines 170-172), run every
step of the nested loop (lines 194-204). -/
def convolve_main (input_y impulse_y : List ℚ) : List ℚ :=
  runSteps input_y impulse_y
    (List.replicate (output_signal_len input_y.length impulse_y.length) 0)
    (stepPairs input_y.length impulse_y.length)

/-- Independent reference: the full discrete convolution as a straightforward
double sum, `ref[k] = Σ_a Σ_b [a + b = k] · input[a] · impulse[b]`, written
directly from the mathematical definition and not from the loop. -/
def convolutionRef (input_y impulse_y : List ℚ) : List ℚ :=
  (List.range (input_y.length + impulse_y.length - 1)).map (fun k =>
    ((List.range input_y.length).map (fun a =>
      ((List.range impulse_y.length).map (fun b =>
        if a + b = k then input_y.getD a 0 * impulse_y.getD b 0 else 0)).sum)).sum)

/-- The contribution to output bin `k` of the pairs in `P`: the sum of
`input[a] * impulse[b]` over the processed pairs `(a, b)` with `a + b = k`. -/
def convSoFar (input_y impulse_y : List ℚ) (P : List (Nat × Nat)) (k : Nat) : ℚ :=
  (P.map (fun p =>
    if p.1 + p.2 = k then input_y.getD p.1 0 * impulse_y.getD p.2 0 else 0)).sum

/-- The step-counter values emitted by `main` of input_side.py, starting from a
given counter value: the loop does `step += 1` first and then displays `step`
(lines 197 and 220), once per remaining pair. -/
def emitAll (start : Nat) : List (Nat × Nat) → List Nat
  | [] => []
  | _ :: rest => (start + 1) :: emitAll (start + 1) rest

/-- The full sequence of step-counter values displayed by `main` of
input_side.py: `step = 0` at line 190, then one pre-incremented emission per
pair of the nested loop. -/
def mainSteps (n m : Nat) : List Nat :=
  emitAll 0 (stepPairs n m)

/-- Embeds the `Signal` class of signal.py.  `y_points` is `none` until one of
the three generator methods has run. -/
structure Signal where
  len : Nat
  points_count : Nat
  x_points : List ℚ
  y_points : Option (List ℚ)
deriving DecidableEq, Repr

/-- Embeds `Signal.__init__(length, points_count)` of signal.py: stores both
arguments and sets `x_points = np.linspace(0, length - 1, points_count)`.
The constructor body contains no validation of either argument. -/
def Signal.init (length : Nat) (points_count : Nat) : Signal :=
  { len := length
    points_count := points_count
    x_points := linspace 0 ((length : ℚ) - 1) points_count
    y_points := none }

/-- The error the spec assigns to out-of-range constructor arguments. -/
inductive SignalError where
  | invalidDimension
deriving DecidableEq, Repr

/-- Signal construction with its raising behaviour made explicit: the body of
`Signal.__init__` in signal.py contains no `raise` and no dimension check, so
every construction returns normally. -/
def Signal.initChecked (length : Nat) (points_count : Nat) :
    Except SignalError Signal :=
  .ok (Signal.init length points_count)

/-- Embeds `Signal.set_custom_output(func)` of signal.py:
`self.y_points = np.array([func(x) for x in self.x_points])`. -/
def Signal.set_custom_output (s : Signal) (func : ℚ → ℚ) : Signal :=
  { s with y_points := some (s.x_points.map func) }

/-- Embeds `Signal.set_random_output(max_output)` of signal.py:
`self.y_points = np.random.randint(max_output, size=self.len)`.  The random
draws are modelled by an oracle `draw`; the array size the code requests is
`self.len`, not `self.points_count`. -/
def Signal.set_random_output (s : Signal) (draw : Nat → Nat) : Signal :=
  { s with y_points := some ((List.range s.len).map (fun i => (draw i : ℚ))) }

/-- Embeds `Signal.set_zero_output()` of signal.py:
`self.y_points = np.zeros(self.len)` — again sized by `self.len`. -/
def Signal.set_zero_output (s : Signal) : Signal :=
  { s with y_points := some (List.replicate s.len 0) }

/-- The record a step hands to the renderer: the displayed step counter and
the three indices plus the freshly written output value. -/
structure StepRecord where
  step_index : Nat
  input_index : Nat
  impulse_index : Nat
  output_index : Nat
  output_value : ℚ
deriving DecidableEq, Repr

/-- The error `next_step` signals once the stepper is exhausted. -/
inductive StepError where
  | exhausted
deriving DecidableEq, Repr

/-- Modelled from the spec: the repository has no ConvolutionStepper class —
src only has the inline nested loop of `main` — so the stepper state machine
of spec §4.2 is modelled from the spec text: input and impulse signals, a
zero-initialized output of length N + M - 1, a `step_count` starting at 0 and
a `done` flag set once all N × M pairs are consumed. -/
structure StepperState where
  input_y : List ℚ
  impulse_y : List ℚ
  output_y : List ℚ
  step_count : Nat
  done : Bool
deriving DecidableEq, Repr

/-- Modelled from the spec: construction of the stepper (spec §4.2) from two
populated signals. -/
def StepperState.init (input_y impulse_y : List ℚ) : StepperState :=
  { input_y := input_y
    impulse_y := impulse_y
    output_y := List.replicate (output_signal_len input_y.length impulse_y.length) 0
    step_count := 0
    done := decide (input_y.length * impulse_y.length = 0) }

/-- Modelled from the spec: `next_step()` (spec §4.2).  Precondition `not done`
violated signals `ExhaustedError`; otherwise one accumulation at the pair
`(step_count / M, step_count % M)` — the row-major order of the loop — is
performed, the record of the just-completed step is returned, and `done` is
set once the pair `(N-1, M-1)` has been processed. -/
def next_step (st : StepperState) : Except StepError (StepRecord × StepperState) :=
  if st.done then
    .error .exhausted
  else
    let m := st.impulse_y.length
    let i := st.step_count / m
    let j := st.step_count % m
    let oi := i + j
    let v := compute_step (st.input_y.getD i 0) (st.impulse_y.getD j 0)
      (st.output_y.getD oi 0)
    .ok ({ step_index := st.step_count
           input_index := i
           impulse_index := j
           output_index := oi
           output_value := v },
         { st with
             output_y := st.output_y.set oi v
             step_count := st.step_count + 1
             done := decide (st.step_count + 1 = st.input_y.length * m) })

/-- Runs `k` consecutive calls of `next_step`, failing as soon as one of them
signals an error. -/
def stepN (st : StepperState) : Nat → Except StepError StepperState
  | 0 => .ok st
  | k + 1 =>
    match stepN st k with
    | .error e => .error e
    | .ok st' => (next_step st').map (fun r => r.2)

/-- Whether a stepper run ended without an error. -/
def isOkB : Except StepError StepperState → Bool
  | .ok _ => true
  | .error _ => false

/-! ### Helper lemmas -/

lemma linspace_length (start stop : ℚ) (num : Nat) :
    (linspace start stop num).length = num := by
  rw [linspace, List.length_map, List.length_range]

lemma stepUpdate_length (iy hy out : List ℚ) (i j : Nat) :
    (stepUpdate iy hy out i j).length = out.length := by
  simp [stepUpdate]

lemma runSteps_length (iy hy : List ℚ) (P : List (Nat × Nat)) :
    ∀ out : List ℚ, (runSteps iy hy out P).length = out.length := by
  induction P with
  | nil => intro out; rfl
  | cons p P ih =>
    intro out
    have h1 : runSteps iy hy out (p :: P) =
        runSteps iy hy (stepUpdate iy hy out p.1 p.2) P := rfl
    rw [h1, ih, stepUpdate_length]

lemma mem_stepPairs {n m i j : Nat} :
    (i, j) ∈ stepPairs n m ↔ i < n ∧ j < m := by
  simp [stepPairs, Prod.ext_iff]

lemma stepPairs_length (n m : Nat) : (stepPairs n m).length = n * m := by
  induction n with
  | zero => simp [stepPairs]
  | succ n ih =>
    have h1 : stepPairs (n + 1) m =
        stepPairs n m ++ (List.range m).map (fun j => (n, j)) := by
      simp [stepPairs, List.range_succ]
    rw [h1]
    simp [ih, Nat.succ_mul]

lemma stepUpdate_getD (iy hy out : List ℚ) (i j k : Nat)
    (hb : i + j < out.length) :
    (stepUpdate iy hy out i j).getD k 0 =
      out.getD k 0 + (if i + j = k then iy.getD i 0 * hy.getD j 0 else 0) := by
  by_cases hc : i + j = k
  · subst hc
    simp [stepUpdate, compute_step, List.getD_eq_getElem?_getD,
      List.getElem?_set_self hb]
  · simp [stepUpdate, List.getD_eq_getElem?_getD, List.getElem?_set_ne hc, hc]

lemma runSteps_getD (iy hy : List ℚ) (P : List (Nat × Nat)) :
    ∀ out : List ℚ, (∀ p ∈ P, p.1 + p.2 < out.length) → ∀ k,
      (runSteps iy hy out P).getD k 0 = out.getD k 0 + convSoFar iy hy P k := by
  induction P with
  | nil => intro out _ k; simp [runSteps, convSoFar]
  | cons p P ih =>
    intro out hb k
    have h1 : runSteps iy hy out (p :: P) =
        runSteps iy hy (stepUpdate iy hy out p.1 p.2) P := rfl
    have hb0 : p.1 + p.2 < out.length := hb p (List.mem_cons_self p P)
    have hb' : ∀ q ∈ P, q.1 + q.2 < (stepUpdate iy hy out p.1 p.2).length := by
      intro q hq
      rw [stepUpdate_length]
      exact hb q (List.mem_cons_of_mem _ hq)
    rw [h1, ih _ hb' k, stepUpdate_getD iy hy out p.1 p.2 k hb0]
    simp only [convSoFar, List.map_cons, List.sum_cons]
    ring

lemma convSoFar_stepPairs (iy hy : List ℚ) (m k : Nat) :
    ∀ n, convSoFar iy hy (stepPairs n m) k =
      ((List.range n).map (fun a =>
        ((List.range m).map (fun b =>
          if a + b = k then iy.getD a 0 * hy.getD b 0 else 0)).sum)).sum := by
  intro n
  induction n with
  | zero => simp [convSoFar, stepPairs]
  | succ n ih =>
    have h1 : stepPairs (n + 1) m =
        stepPairs n m ++ (List.range m).map (fun j => (n, j)) := by
      simp [stepPairs, List.range_succ]
    rw [h1]
    simp only [convSoFar, List.map_append, List.sum_append, List.range_succ,
      List.map_map] at *
    rw [ih]
    simp only [List.map_cons, List.map_nil, List.sum_cons, List.sum_nil,
      add_zero]
    have hfun : ((fun p : Nat × Nat =>
          if p.1 + p.2 = k then iy.getD p.1 0 * hy.getD p.2 0 else 0) ∘
            fun j => (n, j)) =
        fun b => if n + b = k then iy.getD n 0 * hy.getD b 0 else 0 := by
      funext b
      simp [Function.comp]
    rw [hfun]

lemma stepPairs_sum_lt (n m : Nat) {i j : Nat}
    (h : (i, j) ∈ stepPairs n m) : i + j < output_signal_len n m := by
  rcases mem_stepPairs.mp h with ⟨hi, hj⟩
  unfold output_signal_len
  omega

lemma convolve_main_length (iy hy : List ℚ) :
    (convolve_main iy hy).length = output_signal_len iy.length hy.length := by
  rw [convolve_main, runSteps_length]
  simp

lemma convolve_main_getD (iy hy : List ℚ) (k : Nat) :
    (convolve_main iy hy).getD k 0 =
      convSoFar iy hy (stepPairs iy.length hy.length) k := by
  rw [convolve_main, runSteps_getD]
  · simp
  · intro p hp
    rw [List.length_replicate]
    rcases p with ⟨i, j⟩
    exact stepPairs_sum_lt _ _ hp

lemma getD_of_lt (l : List ℚ) (n : Nat) (h : n < l.length) :
    l.getD n 0 = l.get ⟨n, h⟩ := by
  rw [List.getD_eq_getElem?_getD, List.getElem?_eq_getElem h, Option.getD_some]
  rfl

/-! ### Claim theorems -/

/-- C1: after the nested convolution loop of main in input_side.py runs to
completion over an input of N samples and an impulse of M samples, the output
y-array equals the full discrete convolution of the two y-arrays (length
N + M - 1): every output element is the double sum of products of input and
impulse samples whose indices add to its position, as computed by the
independent reference convolutionRef. -/
theorem convolve_main_eq_ref (iy hy : List ℚ) :
    convolve_main iy hy = convolutionRef iy hy := by
  have hlen : (convolve_main iy hy).length = (convolutionRef iy hy).length := by
    rw [convolve_main_length, convolutionRef, List.length_map,
      List.length_range, output_signal_len]
  apply List.ext_getElem hlen
  intro k h1 h2
  have hD := convolve_main_getD iy hy k
  rw [getD_of_lt _ _ h1] at hD
  have hR : (convolutionRef iy hy).get ⟨k, h2⟩ =
      ((List.range iy.length).map (fun a =>
        ((List.range hy.length).map (fun b =>
          if a + b = k then iy.getD a 0 * hy.getD b 0 else 0)).sum)).sum := by
    simp [convolutionRef]
  rw [List.get_eq_getElem] at hD hR
  rw [hD, hR, convSoFar_stepPairs]

/-- C2: after any prefix of steps of the nested loop in its fixed input-major,
impulse-minor order, every output sample equals the sum of products
input[a] * impulse[b] over exactly those pairs (a, b) with a + b = i processed
so far: the partial sums are exact prefixes of the true convolution. -/
theorem convolve_invariant (iy hy : List ℚ) (t k : Nat)
    (_hk : k < output_signal_len iy.length hy.length) :
    (runSteps iy hy
        (List.replicate (output_signal_len iy.length hy.length) 0)
        ((stepPairs iy.length hy.length).take t)).getD k 0 =
      convSoFar iy hy ((stepPairs iy.length hy.length).take t) k := by
  rw [runSteps_getD]
  · simp
  · intro p hp
    rw [List.length_replicate]
    rcases p with ⟨i, j⟩
    exact stepPairs_sum_lt _ _ (List.mem_of_mem_take hp)

/-- Witness for C2 at input [1, 2], impulse [3, 4], after 3 of the 4 steps,
output index 1. -/
theorem convolve_invariant_witness :
    1 < output_signal_len (List.length [(1 : ℚ), 2]) (List.length [(3 : ℚ), 4]) ∧
    (runSteps [(1 : ℚ), 2] [(3 : ℚ), 4]
        (List.replicate
          (output_signal_len (List.length [(1 : ℚ), 2]) (List.length [(3 : ℚ), 4])) 0)
        ((stepPairs (List.length [(1 : ℚ), 2]) (List.length [(3 : ℚ), 4])).take 3)).getD 1 0 =
      convSoFar [(1 : ℚ), 2] [(3 : ℚ), 4]
        ((stepPairs (List.length [(1 : ℚ), 2]) (List.length [(3 : ℚ), 4])).take 3) 1 :=
  ⟨by decide, convolve_invariant [(1 : ℚ), 2] [(3 : ℚ), 4] 3 1 (by decide)⟩

/-- C7: convolving any input signal with an all-zero impulse signal of length
M yields an output y-array of length N + M - 1 that is all zero after the
loop completes. -/
theorem convolve_zero_impulse (iy : List ℚ) (m : Nat) :
    convolve_main iy (List.replicate m 0) =
      List.replicate (iy.length + m - 1) 0 := by
  have hlen : (convolve_main iy (List.replicate m 0)).length =
      (List.replicate (iy.length + m - 1) (0 : ℚ)).length := by
    rw [convolve_main_length, List.length_replicate, List.length_replicate,
      output_signal_len]
  apply List.ext_getElem hlen
  intro k h1 h2
  have hD := convolve_main_getD iy (List.replicate m 0) k
  rw [getD_of_lt _ _ h1] at hD
  rw [List.get_eq_getElem] at hD
  rw [hD]
  have hz : convSoFar iy (List.replicate m 0)
      (stepPairs iy.length (List.replicate m (0 : ℚ)).length) k = 0 := by
    apply List.sum_eq_zero
    intro x hx
    rcases List.mem_map.mp hx with ⟨p, _, rfl⟩
    rcases Nat.lt_or_ge p.2 m with hlt | hge
    · simp [List.getD_eq_getElem?_getD, List.getElem?_replicate, hlt]
    · have : (List.replicate m (0 : ℚ))[p.2]? = none := by
        rw [List.getElem?_eq_none]
        simpa using hge
      simp [List.getD_eq_getElem?_getD, this]
  rw [List.getElem_replicate]
  exact hz

lemma stepN_ok (iy hy : List ℚ) :
    ∀ k, k ≤ iy.length * hy.length →
      ∃ st, stepN (StepperState.init iy hy) k = .ok st ∧
        st.input_y = iy ∧ st.impulse_y = hy ∧ st.step_count = k ∧
        st.done = decide (k = iy.length * hy.length) := by
  intro k
  induction k with
  | zero =>
    intro _
    refine ⟨StepperState.init iy hy, rfl, rfl, rfl, rfl, ?_⟩
    rw [StepperState.init]
    simp [eq_comm]
  | succ k ih =>
    intro hk
    rcases ih (Nat.le_of_succ_le hk) with ⟨st, hst, hin, him, hsc, hdone⟩
    have hlt : k < iy.length * hy.length := Nat.lt_of_succ_le hk
    have hdf : st.done = false := by
      rw [hdone, decide_eq_false_iff_not]
      omega
    have hnext : stepN (StepperState.init iy hy) (k + 1) =
        (next_step st).map (fun r => r.2) := by
      rw [stepN, hst]
    unfold next_step at hnext
    rw [hdf] at hnext
    simp only [Bool.false_eq_true, if_false, Except.map_ok] at hnext
    exact ⟨_, hnext, by simp [hin], by simp [him], by simp [hsc],
      by simp [hsc, hin, him]⟩

lemma emitAll_eq (l : List (Nat × Nat)) :
    ∀ s, emitAll s l = (List.range l.length).map (fun t => s + t + 1) := by
  induction l with
  | nil => intro s; simp [emitAll]
  | cons p l ih =>
    intro s
    rw [emitAll, ih (s + 1), List.length_cons, List.range_succ_eq_map,
      List.map_cons, List.map_map]
    have hfun : ((fun t => s + t + 1) ∘ Nat.succ) = fun t => s + 1 + t + 1 := by
      funext t
      simp [Function.comp]
      omega
    rw [hfun]

/-- C3: for an input of N samples and an impulse of M samples, exactly N × M
calls of next_step succeed, and a further call — made after the last pair
(N-1, M-1) has been processed and the stepper is done — signals
ExhaustedError; the nested loop of main visits exactly N × M pairs. -/
theorem stepper_step_count (iy hy : List ℚ) :
    (∀ k, k ≤ iy.length * hy.length →
      isOkB (stepN (StepperState.init iy hy) k) = true) ∧
    stepN (StepperState.init iy hy) (iy.length * hy.length + 1) =
      .error .exhausted ∧
    (stepPairs iy.length hy.length).length = iy.length * hy.length := by
  refine ⟨?_, ?_, stepPairs_length _ _⟩
  · intro k hk
    rcases stepN_ok iy hy k hk with ⟨st, hst, -⟩
    rw [hst]
    rfl
  · rcases stepN_ok iy hy (iy.length * hy.length) (Nat.le_refl _) with
      ⟨st, hst, -, -, -, hdone⟩
    have hdt : st.done = true := by
      rw [hdone]
      simp
    have hnext : stepN (StepperState.init iy hy) (iy.length * hy.length + 1) =
        (next_step st).map (fun r => r.2) := by
      rw [stepN, hst]
    unfold next_step at hnext
    rw [hdt] at hnext
    simpa using hnext

/-- Witness for C3 at input [1, 2] and impulse [3]: both calls 1 and 2
succeed and the third signals ExhaustedError. -/
theorem stepper_step_count_witness :
    (2 ≤ List.length [(1 : ℚ), 2] * List.length [(3 : ℚ)] ∧
      isOkB (stepN (StepperState.init [(1 : ℚ), 2] [(3 : ℚ)]) 2) = true) ∧
    stepN (StepperState.init [(1 : ℚ), 2] [(3 : ℚ)])
        (List.length [(1 : ℚ), 2] * List.length [(3 : ℚ)] + 1) =
      .error .exhausted :=
  ⟨⟨by decide, (stepper_step_count [(1 : ℚ), 2] [(3 : ℚ)]).1 2 (by decide)⟩,
    (stepper_step_count [(1 : ℚ), 2] [(3 : ℚ)]).2.1⟩

/-- C5 counterexample: with the constants of input_side.py (N = 20, M = 5),
the record emitted for the first multiply-accumulate step carries step value
1, not 0: the loop increments the counter before displaying it. -/
theorem mainSteps_first_is_one :
    (mainSteps 20 5).head? = some 1 ∧ (mainSteps 20 5).head? ≠ some 0 := by
  decide

/-- C5 (amended): the step counter starts at 0 but is incremented before each
emission, so the record for the t-th multiply-accumulate step (0-based t)
carries step value t + 1: the first record carries 1 and the value increases
by exactly 1 with each subsequent step. -/
theorem mainSteps_eq (n m : Nat) :
    mainSteps n m = (List.range (n * m)).map (fun t => t + 1) := by
  rw [mainSteps, emitAll_eq, stepPairs_length]
  simp

/-- C4: evaluation of the Signal generators at the failing input
Signal(length = 2, points_count = 3).  The constructor creates 3 x-points,
but set_zero_output and set_random_output size the y-array by the length
argument and produce only 2 y-values, breaking the claimed length invariant;
only set_custom_output matches the 3 x-points. -/
theorem signal_length_mismatch :
    ((Signal.init 2 3).x_points.length = 3 ∧
      ((Signal.init 2 3).set_zero_output.y_points.getD []).length = 2) ∧
    (((Signal.init 2 3).set_random_output (fun _ => 0)).y_points.getD []).length = 2 ∧
    (((Signal.init 2 3).set_custom_output (fun x => x)).y_points.getD []).length = 3 := by
  refine ⟨⟨?_, ?_⟩, ?_, ?_⟩ <;> rfl

/-- C6 counterexample: Signal construction with length 0 (< 1) returns
normally, producing a Signal, instead of raising InvalidDimensionError: the
constructor performs no dimension check. -/
theorem initChecked_no_raise_at_zero :
    Signal.initChecked 0 3 = .ok (Signal.init 0 3) := rfl

/-- C6 (amended): Signal construction never raises InvalidDimensionError: for
every length and sample count — including length < 1 or sample_count < 1 —
construction succeeds and yields the Signal with points_count x-points. -/
theorem initChecked_always_ok (length points_count : Nat) :
    Signal.initChecked length points_count =
      .ok (Signal.init length points_count) ∧
    (Signal.init length points_count).x_points.length = points_count := by
  refine ⟨rfl, ?_⟩
  simp [Signal.init, linspace_length]

/-- C8: for every Signal constructed with sample_count > 1, the first
x-coordinate is 0 and the last is length - 1. -/
theorem signal_x_endpoints (length points_count : Nat)
    (h : 2 ≤ points_count) :
    (Signal.init length points_count).x_points.getD 0 0 = 0 ∧
    (Signal.init length points_count).x_points.getD (points_count - 1) 0 =
      (length : ℚ) - 1 := by
  have hpc : ((points_count : ℚ) - 1) ≠ 0 := by
    have h2 : (2 : ℚ) ≤ (points_count : ℚ) := by exact_mod_cast h
    intro hc
    rw [sub_eq_zero] at hc
    rw [hc] at h2
    norm_num at h2
  constructor
  · simp [Signal.init, linspace, List.getD_eq_getElem?_getD, List.getElem?_map,
      List.getElem?_range, Nat.lt_of_lt_of_le Nat.zero_lt_two h]
  · have hlt : points_count - 1 < points_count := by omega
    simp only [Signal.init, linspace, List.getD_eq_getElem?_getD,
      List.getElem?_map, List.getElem?_range, hlt, if_pos, Option.map_some',
      Option.getD_some]
    have hcast : ((points_count - 1 : ℕ) : ℚ) = (points_count : ℚ) - 1 := by
      push_cast [Nat.cast_sub (by omega : 1 ≤ points_count)]
      ring
    rw [hcast, sub_zero, zero_add, mul_comm, mul_div_assoc, div_self hpc,
      mul_one]

/-- Witness for C8 at Signal(length = 4, points_count = 5): first x-point 0,
last x-point 3. -/
theorem signal_x_endpoints_witness :
    2 ≤ 5 ∧
    ((Signal.init 4 5).x_points.getD 0 0 = 0 ∧
      (Signal.init 4 5).x_points.getD (5 - 1) 0 = ((4 : Nat) : ℚ) - 1) :=
  ⟨by decide, signal_x_endpoints 4 5 (by decide)⟩

/-- C9: one pass of the loop body writes exactly the output y-sample at index
input_index + impulse_index — setting it to the compute_step accumulation —
and leaves every other output y-sample, both input arrays, both impulse
arrays and the output x-array unchanged. -/
theorem loopBody_frame (st : MainState) (i j : Nat)
    (h : i + j < st.output_y.length) :
    (loopBody st i j).input_x = st.input_x ∧
    (loopBody st i j).input_y = st.input_y ∧
    (loopBody st i j).impulse_x = st.impulse_x ∧
    (loopBody st i j).impulse_y = st.impulse_y ∧
    (loopBody st i j).output_x = st.output_x ∧
    (loopBody st i j).output_y.length = st.output_y.length ∧
    (loopBody st i j).output_y.getD (i + j) 0 =
      compute_step (st.input_y.getD i 0) (st.impulse_y.getD j 0)
        (st.output_y.getD (i + j) 0) ∧
    ∀ k, k ≠ i + j → (loopBody st i j).output_y.getD k 0 =
      st.output_y.getD k 0 := by
  refine ⟨rfl, rfl, rfl, rfl, rfl, ?_, ?_, ?_⟩
  · exact stepUpdate_length _ _ _ _ _
  · show (stepUpdate st.input_y st.impulse_y st.output_y i j).getD (i + j) 0 = _
    rw [stepUpdate_getD _ _ _ _ _ _ h, if_pos rfl, compute_step]
  · intro k hk
    show (stepUpdate st.input_y st.impulse_y st.output_y i j).getD k 0 = _
    rw [stepUpdate_getD _ _ _ _ _ _ h, if_neg (fun hc => hk hc.symm), add_zero]

/-- Witness for C9 at a concrete state with two output samples, step (0, 1):
output sample 1 is accumulated, output sample 0 is untouched, all other
arrays are unchanged. -/
theorem loopBody_frame_witness :
    (0 : Nat) + 1 < (List.length [(5 : ℚ), 7]) ∧
    ((loopBody ⟨[0], [2], [1], [3], [0, 1], [5, 7]⟩ 0 1).input_x = [0] ∧
      (loopBody ⟨[0], [2], [1], [3], [0, 1], [5, 7]⟩ 0 1).input_y = [2] ∧
      (loopBody ⟨[0], [2], [1], [3], [0, 1], [5, 7]⟩ 0 1).impulse_x = [1] ∧
      (loopBody ⟨[0], [2], [1], [3], [0, 1], [5, 7]⟩ 0 1).impulse_y = [3] ∧
      (loopBody ⟨[0], [2], [1], [3], [0, 1], [5, 7]⟩ 0 1).output_x = [0, 1] ∧
      (loopBody ⟨[0], [2], [1], [3], [0, 1], [5, 7]⟩ 0 1).output_y.length =
        List.length [(5 : ℚ), 7] ∧
      (loopBody ⟨[0], [2], [1], [3], [0, 1], [5, 7]⟩ 0 1).output_y.getD (0 + 1) 0 =
        compute_step (List.getD [(2 : ℚ)] 0 0) (List.getD [(3 : ℚ)] 1 0)
          (List.getD [(5 : ℚ), 7] (0 + 1) 0)) ∧
    (loopBody ⟨[0], [2], [1], [3], [0, 1], [5, 7]⟩ 0 1).output_y.getD 0 0 =
      List.getD [(5 : ℚ), 7] 0 0 := by
  have H := loopBody_frame ⟨[0], [2], [1], [3], [0, 1], [5, 7]⟩ 0 1 (by decide)
  exact ⟨by decide,
    ⟨H.1, H.2.1, H.2.2.1, H.2.2.2.1, H.2.2.2.2.1, H.2.2.2.2.2.1,
      H.2.2.2.2.2.2.1⟩,
    H.2.2.2.2.2.2.2 0 (by decide)⟩

/-- C10: every array index the convolution loop touches is in bounds: for
every pair (input_index, impulse_index) the loop visits, the computed output
index input_index + impulse_index is below N + M - 1, the length of the
zero-initialized output array. -/
theorem stepPairs_in_bounds (n m i j : Nat) (h : (i, j) ∈ stepPairs n m) :
    i + j < output_signal_len n m ∧
    i + j < (List.replicate (output_signal_len n m) (0 : ℚ)).length := by
  have hlt := stepPairs_sum_lt n m h
  exact ⟨hlt, by simpa using hlt⟩

/-- Witness for C10 at the last pair (1, 2) of a 2-by-3 iteration: output
index 3 is below the output length 4. -/
theorem stepPairs_in_bounds_witness :
    ((1, 2) ∈ stepPairs 2 3) ∧
    (1 + 2 < output_signal_len 2 3 ∧
      1 + 2 < (List.replicate (output_signal_len 2 3) (0 : ℚ)).length) :=
  ⟨by decide, stepPairs_in_bounds 2 3 1 2 (by decide)⟩

end DSP
